import Mathlib

/-!
Verification of the `PrankMoe` programs of the EASTLExamples repository
(`src/StringLiteral/CString/CString.cpp`,
`src/StringLiteral/EASTLString/EASTLString.cpp`,
`src/StringLiteral/StringView/StringView.cpp`).

Texts are embedded as `List Char`: for the C-string variant the list holds
the bytes strictly before the terminating NUL (so `strlen` is the list
length and the terminator is the end of the list); for the EASTL string and
string-view variants the list holds exactly the `length()` bytes the object
tracks.  The external formatter (`printf` with `%.*s` directives) is not
part of the repository's sources; it is modelled below (`render`) from the
spec's renderer contract together with C's `%.*s` semantics: each `%.*s`
consumes one `(length, bytes)` pair and emits the first `length` bytes of
`bytes`, emission stopping early at the end of the backing text (the
terminator), and a directive with no remaining argument pair is undefined
behaviour, modelled as `none`.
-/

/-- First index of the character `c` in `s`, scanning left to right;
`none` when `c` does not occur.  This is the one scanning primitive behind
the three external find operations the sources call: libc `strchr`,
`eastl::string::find` and `eastl::string_view::find` (none of which is in
the repository's own sources). -/
def findChar : List Char → Char → Option Nat
  | [], _ => none
  | b :: rest, c => if b = c then some 0 else Option.map (fun i => i + 1) (findChar rest c)

/-- Modelled from the spec: the external length-prefixed variadic formatter
(`printf` restricted to the `%.*s` directives these templates use).  Each
`%.*s` placeholder consumes the next `(length, bytes)` pair and emits the
first `length` bytes of `bytes` (`List.take` clamps at the end of the list,
which is exactly the stop-at-terminator behaviour of `%.*s`); every other
character is copied through; a placeholder with no remaining pair is the
undefined-behaviour branch, modelled as `none`; leftover pairs after the
template ends are ignored, as C defines. -/
def render : List Char → List (Nat × List Char) → Option (List Char)
  | '%' :: '.' :: '*' :: 's' :: rest, args =>
    match args with
    | (len, bytes) :: args => Option.map (fun r => bytes.take len ++ r) (render rest args)
    | [] => none
  | c :: rest, args => Option.map (fun r => c :: r) (render rest args)
  | [], _ => some []

/-- Number of `%.*s` placeholders in a template, counted in the same scan
order `render` uses. -/
def countPlaceholders : List Char → Nat
  | '%' :: '.' :: '*' :: 's' :: rest => countPlaceholders rest + 1
  | _ :: rest => countPlaceholders rest
  | [] => 0

/-- Modelled from the spec: the renderer contract of section 4.2, word for
word — for each placeholder in template scan order, consume the next
`(length, bytes)` pair and emit exactly `length` bytes from the start of
`bytes`, regardless of the backing text's own terminator or true length.
Emitting exactly `length` bytes is only meaningful under the contract's
precondition `length ≤ ` true backing length, so the chunk is guarded. -/
def exactBytes (len : Nat) (bytes : List Char) : Option (List Char) :=
  if len ≤ bytes.length then some (bytes.take len) else none

/-- Modelled from the spec: the renderer of section 4.2, substituting for
each placeholder a chunk of exactly the supplied length (via `exactBytes`),
to be compared with `render`, the model of the formatter the code calls. -/
def renderSpec : List Char → List (Nat × List Char) → Option (List Char)
  | '%' :: '.' :: '*' :: 's' :: rest, args =>
    match args with
    | (len, bytes) :: args =>
      Option.bind (exactBytes len bytes) fun chunk =>
        Option.map (fun r => chunk ++ r) (renderSpec rest args)
    | [] => none
  | c :: rest, args => Option.map (fun r => c :: r) (renderSpec rest args)
  | [], _ => some []

/-- `MOE_DIALOGUE_1` of all three variants. -/
def MOE_DIALOGUE_1 : List Char :=
  "Hey, is there a %.*s here? Hey, everybody, I wanna %.*s!\n".toList

/-- `MOE_DIALOGUE_2` of all three variants. -/
def MOE_DIALOGUE_2 : List Char :=
  "Uh, %.*s? Hey, I'm lookin for %.*s!\n".toList

/-- `PRANK_NAME_1` of all three variants. -/
def PRANK_NAME_1 : List Char := "Seymour Butz".toList

/-- `PRANK_NAME_2` of all three variants. -/
def PRANK_NAME_2 : List Char := "Amanda Hugginkiss".toList

namespace CString

/-- `strlen`: length of a NUL-terminated buffer, the distance to the
terminator, which in this embedding is the length of the list of stored
bytes. -/
def strlen (s : List Char) : Nat := s.length

/-- `std::strchr` on the stored bytes: index of the first occurrence of
`c`, `none` when absent (the source only ever searches for a space, never
for the terminator itself). -/
def strchr (s : List Char) (c : Char) : Option Nat := findChar s c

/-- `IsEmpty` of `CString.cpp` lines 10–13: a null or empty string.  A null
pointer and an empty buffer are identified in this embedding (both are
`[]`).  Note the source defines this guard but `PrankMoe` never calls it. -/
def IsEmpty (s : List Char) : Bool := s.isEmpty

/-- `firstNameLength` of `CString.cpp` line 18: the offset of the first
space when one exists (`delimiter - fullName`), otherwise `strlen`. -/
def firstNameLength (fullName : List Char) : Nat :=
  match strchr fullName ' ' with
  | some i => i
  | none => strlen fullName

/-- The bytes the first `%.*s` of `CString.cpp` line 20 emits from the pair
`(firstNameLength, fullName)`: the first `firstNameLength` bytes of the
full name.  This is the C-string variant's name fragment. -/
def fragment (fullName : List Char) : List Char :=
  fullName.take (firstNameLength fullName)

/-- `PrankMoe` of `CString.cpp` lines 15–21: split at the first space and
format `localised` with the pairs `(firstNameLength, fullName)` and
`(strlen fullName, fullName)`.  The result is the text written to standard
output (`none` on the formatter's undefined-behaviour branch). -/
def PrankMoe (localised fullName : List Char) : Option (List Char) :=
  render localised [(firstNameLength fullName, fullName), (strlen fullName, fullName)]

end CString

namespace EASTLString

/-- `eastl::string::find(c)`: index of the first occurrence, `npos`
(modelled as `none`) when absent. -/
def find (s : List Char) (c : Char) : Option Nat := findChar s c

/-- `eastl::string::substr(pos, count)`: the bytes from `pos`, at most
`count` of them, clamped at the end of the string. -/
def substr (s : List Char) (pos count : Nat) : List Char :=
  (s.drop pos).take count

/-- `outputName` of `EASTLString.cpp` lines 18–19: `substr(0, pos)` of the
first space when one exists, otherwise the whole name (an owning copy in
the source; values are copied freely in this embedding). -/
def outputName (fullName : List Char) : List Char :=
  match find fullName ' ' with
  | some i => substr fullName 0 i
  | none => fullName

/-- `PrankMoe` of `EASTLString.cpp` lines 15–22: split via `find`/`substr`
and format `localised` with the pairs `(outputName.length(), outputName)`
and `(fullName.length(), fullName)`. -/
def PrankMoe (localised fullName : List Char) : Option (List Char) :=
  render localised
    [((outputName fullName).length, outputName fullName), (fullName.length, fullName)]

end EASTLString

namespace StringView

/-- `eastl::string_view::find(c)`: index of the first occurrence, `npos`
(modelled as `none`) when absent. -/
def find (s : List Char) (c : Char) : Option Nat := findChar s c

/-- `eastl::string_view::substr(pos, count)`: the viewed bytes from `pos`,
at most `count` of them, clamped at the end of the view. -/
def substr (s : List Char) (pos count : Nat) : List Char :=
  (s.drop pos).take count

/-- `outputName` of `StringView.cpp` lines 13–14: the view `substr(0, pos)`
up to the first space when one exists, otherwise the whole view. -/
def outputName (fullName : List Char) : List Char :=
  match find fullName ' ' with
  | some i => substr fullName 0 i
  | none => fullName

/-- `PrankMoe` of `StringView.cpp` lines 10–17: split via `find`/`substr`
on views and format `localised` with the pairs `(outputName.length(),
outputName)` and `(fullName.length(), fullName)`. -/
def PrankMoe (localised fullName : List Char) : Option (List Char) :=
  render localised
    [((outputName fullName).length, outputName fullName), (fullName.length, fullName)]

end StringView

/-! ### Helper lemmas about the scanning primitive -/

theorem findChar_eq_none_iff (s : List Char) (c : Char) :
    findChar s c = none ↔ c ∉ s := by
  induction s with
  | nil => simp [findChar]
  | cons b rest ih =>
    by_cases h : b = c
    · simp [findChar, h]
    · have hcb : ¬ c = b := fun hh => h hh.symm
      simp [findChar, h, ih, hcb]

theorem findChar_lt_length (s : List Char) (c : Char) (i : Nat)
    (h : findChar s c = some i) : i < s.length := by
  induction s generalizing i with
  | nil => simp [findChar] at h
  | cons b rest ih =>
    by_cases hb : b = c
    · simp [findChar, hb] at h
      simp only [List.length_cons]
      omega
    · simp [findChar, hb] at h
      obtain ⟨j, hj, rfl⟩ := h
      have := ih j hj
      simp only [List.length_cons]
      omega

theorem take_findChar_eq_takeWhile (s : List Char) (c : Char) (i : Nat)
    (h : findChar s c = some i) :
    s.take i = s.takeWhile (fun b => b != c) := by
  induction s generalizing i with
  | nil => simp [findChar] at h
  | cons b rest ih =>
    by_cases hb : b = c
    · have hb2 : (b != c) = false := by simp [hb]
      simp [findChar, hb] at h
      subst h
      simp [List.takeWhile_cons, hb2]
    · have hb2 : (b != c) = true := by simp [hb]
      simp [findChar, hb] at h
      obtain ⟨j, hj, rfl⟩ := h
      simp [List.takeWhile_cons, hb2, ih j hj]

/-- The C-string fragment, the EASTL `outputName` and the view `outputName`
are the same function of the underlying bytes: the three variants compute
the same split. -/
theorem outputName_eq_fragment (s : List Char) :
    EASTLString.outputName s = CString.fragment s := by
  unfold EASTLString.outputName CString.fragment CString.firstNameLength
  unfold EASTLString.find CString.strchr EASTLString.substr CString.strlen
  cases hf : findChar s ' ' with
  | none => simp [hf, List.take_length]
  | some i => simp [hf]

theorem view_outputName_eq (s : List Char) :
    StringView.outputName s = EASTLString.outputName s := rfl

/-! ### Helper lemmas about the formatter model -/

theorem render_other (c : Char) (rest : List Char) (args : List (Nat × List Char))
    (hne : ∀ r, c = '%' → rest = '.' :: '*' :: 's' :: r → False) :
    render (c :: rest) args = Option.map (fun r => c :: r) (render rest args) := by
  rw [render.eq_def]
  split
  · rename_i r heq
    injection heq with h1 h2
    exact (hne r h1 h2).elim
  · rename_i c' rest' heq
    injection heq with h1 h2
    subst h1; subst h2; rfl
  · rename_i heq; cases heq

theorem renderSpec_other (c : Char) (rest : List Char) (args : List (Nat × List Char))
    (hne : ∀ r, c = '%' → rest = '.' :: '*' :: 's' :: r → False) :
    renderSpec (c :: rest) args = Option.map (fun r => c :: r) (renderSpec rest args) := by
  rw [renderSpec.eq_def]
  split
  · rename_i r heq
    injection heq with h1 h2
    exact (hne r h1 h2).elim
  · rename_i c' rest' heq
    injection heq with h1 h2
    subst h1; subst h2; rfl
  · rename_i heq; cases heq

theorem countPlaceholders_other (c : Char) (rest : List Char)
    (hne : ∀ r, c = '%' → rest = '.' :: '*' :: 's' :: r → False) :
    countPlaceholders (c :: rest) = countPlaceholders rest := by
  rw [countPlaceholders.eq_def]
  split
  · rename_i r heq
    injection heq with h1 h2
    exact (hne r h1 h2).elim
  · rename_i c' rest' heq
    injection heq with h1 h2
    subst h2; rfl
  · rename_i heq; cases heq

/-- The formatter never reaches its undefined-behaviour branch when the
template's placeholder count is covered by the supplied pairs. -/
theorem render_isSome (t : List Char) (args : List (Nat × List Char))
    (h : countPlaceholders t ≤ args.length) : (render t args).isSome := by
  induction t, args using render.induct with
  | case1 rest len bytes args ih =>
    simp only [render, countPlaceholders, List.length_cons] at *
    simpa using ih (by omega)
  | case2 rest => simp [countPlaceholders] at h
  | case3 c rest args hne ih =>
    rw [render_other c rest args hne]
    rw [countPlaceholders_other c rest hne] at h
    simpa using ih h
  | case4 args => simp [render]

/-- The formatter's output depends on each `(length, bytes)` pair only
through the bytes the pair actually emits. -/
theorem render_congr (t : List Char) (a1 a2 : List (Nat × List Char))
    (h : List.Forall₂ (fun p q : Nat × List Char => p.2.take p.1 = q.2.take q.1) a1 a2) :
    render t a1 = render t a2 := by
  induction t, a1 using render.induct generalizing a2 with
  | case1 rest len bytes args ih =>
    rcases h with _ | ⟨hpq, htail⟩
    rename_i q a2'
    obtain ⟨len2, bytes2⟩ := q
    simp only [render]
    rw [ih _ htail, hpq]
  | case2 rest =>
    cases h
    simp [render]
  | case3 c rest args hne ih =>
    rw [render_other c rest _ hne, render_other c rest _ hne, ih _ h]
  | case4 args =>
    rcases h with _ | _ <;> simp [render]

/-- Under the spec's precondition on supplied lengths, the formatter the
code calls agrees with the spec's renderer contract. -/
theorem render_eq_renderSpec (t : List Char) (args : List (Nat × List Char))
    (h : ∀ p ∈ args, p.1 ≤ p.2.length) : render t args = renderSpec t args := by
  induction t, args using render.induct with
  | case1 rest len bytes args ih =>
    have hlen : len ≤ bytes.length := by
      have := h (len, bytes) (by simp)
      simpa using this
    simp only [render, renderSpec, exactBytes, if_pos hlen, Option.bind]
    rw [ih (fun p hp => h p (by simp [hp]))]
  | case2 rest => simp [render, renderSpec]
  | case3 c rest args hne ih =>
    rw [render_other c rest _ hne, renderSpec_other c rest _ hne, ih h]
  | case4 args => simp [render, renderSpec]

/-- `CString.fragment` through the found index. -/
theorem fragment_eq_take (s : List Char) (i : Nat) (hf : findChar s ' ' = some i) :
    CString.fragment s = s.take i := by
  simp [CString.fragment, CString.firstNameLength, CString.strchr, hf]

/-! ### The claims -/

/-- C1: for every non-empty input containing a space, the splitter step of
`PrankMoe` in each of the three variants yields exactly the prefix of the
input before the first space, and the fragment's length is strictly less
than the input's true length. -/
theorem splitterYieldsPrefixBeforeFirstSpace (s : List Char)
    (hne : s ≠ []) (hsp : ' ' ∈ s) :
    CString.fragment s = s.takeWhile (fun b => b != ' ') ∧
    EASTLString.outputName s = s.takeWhile (fun b => b != ' ') ∧
    StringView.outputName s = s.takeWhile (fun b => b != ' ') ∧
    (CString.fragment s).length < CString.strlen s ∧
    (EASTLString.outputName s).length < s.length ∧
    (StringView.outputName s).length < s.length := by
  obtain ⟨i, hf⟩ : ∃ i, findChar s ' ' = some i := by
    cases hfc : findChar s ' ' with
    | none => exact absurd ((findChar_eq_none_iff s ' ').mp hfc) (by simpa using hsp)
    | some i => exact ⟨i, rfl⟩
  have hlt := findChar_lt_length s ' ' i hf
  have hfrag : CString.fragment s = s.take i := fragment_eq_take s i hf
  have heq1 : CString.fragment s = s.takeWhile (fun b => b != ' ') := by
    rw [hfrag, take_findChar_eq_takeWhile s ' ' i hf]
  have heq2 : EASTLString.outputName s = s.takeWhile (fun b => b != ' ') :=
    (outputName_eq_fragment s).trans heq1
  have heq3 : StringView.outputName s = s.takeWhile (fun b => b != ' ') :=
    (view_outputName_eq s).trans heq2
  have hlen : (CString.fragment s).length < s.length := by
    rw [hfrag]
    simp only [List.length_take]
    omega
  exact ⟨heq1, heq2, heq3, hlen,
    by rw [outputName_eq_fragment s]; exact hlen,
    by rw [view_outputName_eq s, outputName_eq_fragment s]; exact hlen⟩

theorem splitterYieldsPrefixBeforeFirstSpaceWitness :
    CString.fragment PRANK_NAME_1 = PRANK_NAME_1.takeWhile (fun b => b != ' ') ∧
    EASTLString.outputName PRANK_NAME_1 = PRANK_NAME_1.takeWhile (fun b => b != ' ') ∧
    StringView.outputName PRANK_NAME_1 = PRANK_NAME_1.takeWhile (fun b => b != ' ') ∧
    (CString.fragment PRANK_NAME_1).length < CString.strlen PRANK_NAME_1 ∧
    (EASTLString.outputName PRANK_NAME_1).length < PRANK_NAME_1.length ∧
    (StringView.outputName PRANK_NAME_1).length < PRANK_NAME_1.length :=
  splitterYieldsPrefixBeforeFirstSpace PRANK_NAME_1 (by decide) (by decide)

/-- C2: for every non-empty input containing no space, the splitter step of
`PrankMoe` in each of the three variants yields the entire input unchanged,
with fragment length equal to the input's true length. -/
theorem splitterYieldsWholeInputWithoutSpace (s : List Char)
    (hne : s ≠ []) (hsp : ' ' ∉ s) :
    CString.fragment s = s ∧
    EASTLString.outputName s = s ∧
    StringView.outputName s = s ∧
    CString.firstNameLength s = CString.strlen s ∧
    (EASTLString.outputName s).length = s.length ∧
    (StringView.outputName s).length = s.length := by
  have hf : findChar s ' ' = none := (findChar_eq_none_iff s ' ').mpr hsp
  have hfrag : CString.fragment s = s := by
    simp [CString.fragment, CString.firstNameLength, CString.strchr, CString.strlen, hf,
      List.take_length]
  have hout : EASTLString.outputName s = s := (outputName_eq_fragment s).trans hfrag
  refine ⟨hfrag, hout, (view_outputName_eq s).trans hout, ?_, by rw [hout],
    by rw [view_outputName_eq s, hout]⟩
  simp [CString.firstNameLength, CString.strchr, hf]

theorem splitterYieldsWholeInputWithoutSpaceWitness :
    CString.fragment "Tom".toList = "Tom".toList ∧
    EASTLString.outputName "Tom".toList = "Tom".toList ∧
    StringView.outputName "Tom".toList = "Tom".toList ∧
    CString.firstNameLength "Tom".toList = CString.strlen "Tom".toList ∧
    (EASTLString.outputName "Tom".toList).length = "Tom".toList.length ∧
    (StringView.outputName "Tom".toList).length = "Tom".toList.length :=
  splitterYieldsWholeInputWithoutSpace "Tom".toList (by decide) (by decide)

/-- C9: for every input text, in each of the three variants, the fragment
computed by the splitter step is a contiguous prefix of the input and its
length never exceeds the input's true length. -/
theorem splitterFragmentIsBoundedPrefix (s : List Char) :
    CString.fragment s <+: s ∧
    (CString.fragment s).length ≤ CString.strlen s ∧
    EASTLString.outputName s <+: s ∧
    (EASTLString.outputName s).length ≤ s.length ∧
    StringView.outputName s <+: s ∧
    (StringView.outputName s).length ≤ s.length := by
  have hfrag : CString.fragment s <+: s := List.take_prefix _ s
  have hlen : (CString.fragment s).length ≤ s.length := by
    simp only [CString.fragment, List.length_take]
    omega
  exact ⟨hfrag, hlen,
    by rw [outputName_eq_fragment s]; exact hfrag,
    by rw [outputName_eq_fragment s]; exact hlen,
    by rw [view_outputName_eq s, outputName_eq_fragment s]; exact hfrag,
    by rw [view_outputName_eq s, outputName_eq_fragment s]; exact hlen⟩

/-- C3: for every template and every sequence of `(length, bytes)` pairs
satisfying the renderer's precondition (`length ≤ ` true backing length),
the formatter the code calls substitutes, for each placeholder in template
scan order, exactly `length` bytes taken from the start of the paired
bytes: it agrees with the spec's exact-length renderer `renderSpec`, and
each pair's emitted chunk has length exactly the supplied `length`. -/
theorem rendererEmitsExactlySuppliedLengths (t : List Char)
    (args : List (Nat × List Char)) (h : ∀ p ∈ args, p.1 ≤ p.2.length) :
    render t args = renderSpec t args ∧
    ∀ p ∈ args, (p.2.take p.1).length = p.1 := by
  refine ⟨render_eq_renderSpec t args h, fun p hp => ?_⟩
  simp only [List.length_take]
  exact Nat.min_eq_left (h p hp)

theorem rendererEmitsExactlySuppliedLengthsWitness :
    render MOE_DIALOGUE_2 [(6, PRANK_NAME_2), (17, PRANK_NAME_2)] =
      renderSpec MOE_DIALOGUE_2 [(6, PRANK_NAME_2), (17, PRANK_NAME_2)] ∧
    ∀ p ∈ [(6, PRANK_NAME_2), (17, PRANK_NAME_2)], (p.2.take p.1).length = p.1 :=
  rendererEmitsExactlySuppliedLengths MOE_DIALOGUE_2
    [(6, PRANK_NAME_2), (17, PRANK_NAME_2)] (by decide)

/-- C4: for every full-name input and template, the three variants of
`PrankMoe` produce byte-for-byte identical rendered output; in particular
the C-string variant's `(firstNameLength, fullName)` pair emits the same
bytes as the other variants' `(outputName.length(), outputName.data())`
pair built from an explicit substring. -/
theorem variantsRenderIdentically (localised fullName : List Char) :
    CString.PrankMoe localised fullName = EASTLString.PrankMoe localised fullName ∧
    EASTLString.PrankMoe localised fullName = StringView.PrankMoe localised fullName := by
  refine ⟨?_, rfl⟩
  unfold CString.PrankMoe EASTLString.PrankMoe
  apply render_congr
  refine List.Forall₂.cons ?_ (List.Forall₂.cons ?_ List.Forall₂.nil)
  · show fullName.take (CString.firstNameLength fullName) =
      (EASTLString.outputName fullName).take (EASTLString.outputName fullName).length
    rw [List.take_length, outputName_eq_fragment]
    rfl
  · show fullName.take (CString.strlen fullName) = fullName.take fullName.length
    rfl

/-- C5: the program's second call (input `"Amanda Hugginkiss"` through the
dual-placeholder template `MOE_DIALOGUE_2`) embeds `"Amanda"` in the first
placeholder slot and `"Amanda Hugginkiss"` in the second, outputting
`"Uh, Amanda? Hey, I'm lookin for Amanda Hugginkiss!\n"`, in each
variant. -/
theorem secondCallOutputsAmandaDialogue :
    CString.PrankMoe MOE_DIALOGUE_2 PRANK_NAME_2 =
      some "Uh, Amanda? Hey, I'm lookin for Amanda Hugginkiss!\n".toList ∧
    EASTLString.PrankMoe MOE_DIALOGUE_2 PRANK_NAME_2 =
      some "Uh, Amanda? Hey, I'm lookin for Amanda Hugginkiss!\n".toList ∧
    StringView.PrankMoe MOE_DIALOGUE_2 PRANK_NAME_2 =
      some "Uh, Amanda? Hey, I'm lookin for Amanda Hugginkiss!\n".toList := by
  refine ⟨by decide, by decide, by decide⟩

/-- C6, counterexample: the claim says the renderer, receiving an empty
required argument, performs no output; but on the empty full name the
C-string `PrankMoe` (which never calls its own `IsEmpty` guard) still
writes the whole template with nothing substituted — a non-empty output. -/
theorem emptyArgumentStillProducesOutput :
    CString.PrankMoe MOE_DIALOGUE_1 [] =
      some "Hey, is there a  here? Hey, everybody, I wanna !\n".toList ∧
    "Hey, is there a  here? Hey, everybody, I wanna !\n".toList ≠ ([] : List Char) := by
  refine ⟨by decide, by decide⟩

/-- C6, amended: for empty input the splitter yields an empty fragment in
all three variants, and the renderer given an empty template performs no
output and returns without error; but an empty required argument is not
guarded (the `IsEmpty` guard exists in the C-string source and is never
called): `PrankMoe` renders the full template with zero bytes substituted
for the name. -/
theorem emptyInputPolicy :
    CString.fragment [] = [] ∧
    EASTLString.outputName [] = [] ∧
    StringView.outputName [] = [] ∧
    CString.IsEmpty [] = true ∧
    (∀ args : List (Nat × List Char), render [] args = some []) ∧
    CString.PrankMoe MOE_DIALOGUE_1 [] =
      some "Hey, is there a  here? Hey, everybody, I wanna !\n".toList ∧
    EASTLString.PrankMoe MOE_DIALOGUE_1 [] =
      some "Hey, is there a  here? Hey, everybody, I wanna !\n".toList ∧
    StringView.PrankMoe MOE_DIALOGUE_1 [] =
      some "Hey, is there a  here? Hey, everybody, I wanna !\n".toList := by
  refine ⟨by decide, by decide, by decide, by decide, fun args => rfl, by decide,
    by decide, by decide⟩

/-- C7: in every call the program actually performs (both calls of `main`
in each of the three variants) the template holds exactly two placeholders
and `PrankMoe` supplies exactly two `(length, bytes)` pairs, so the
formatter's argument-count-mismatch undefined-behaviour branch (`none`) is
never reached: every shipped call renders successfully. -/
theorem shippedCallsHaveMatchingArity :
    countPlaceholders MOE_DIALOGUE_1 = 2 ∧
    countPlaceholders MOE_DIALOGUE_2 = 2 ∧
    (CString.PrankMoe MOE_DIALOGUE_1 PRANK_NAME_1).isSome ∧
    (CString.PrankMoe MOE_DIALOGUE_2 PRANK_NAME_2).isSome ∧
    (EASTLString.PrankMoe MOE_DIALOGUE_1 PRANK_NAME_1).isSome ∧
    (EASTLString.PrankMoe MOE_DIALOGUE_2 PRANK_NAME_2).isSome ∧
    (StringView.PrankMoe MOE_DIALOGUE_1 PRANK_NAME_1).isSome ∧
    (StringView.PrankMoe MOE_DIALOGUE_2 PRANK_NAME_2).isSome := by
  refine ⟨by decide, by decide, by decide, by decide, by decide, by decide,
    by decide, by decide⟩

/-- C8: in every call the program actually performs, each supplied length
is within the true byte length of its paired text's backing storage: the
first pair's length (distance to the first space, or the full scanned
length) never exceeds the full name's length, and the second pair's length
equals the full name's length exactly. -/
theorem shippedLengthsWithinBacking :
    CString.firstNameLength PRANK_NAME_1 ≤ CString.strlen PRANK_NAME_1 ∧
    CString.firstNameLength PRANK_NAME_2 ≤ CString.strlen PRANK_NAME_2 ∧
    CString.strlen PRANK_NAME_1 = PRANK_NAME_1.length ∧
    CString.strlen PRANK_NAME_2 = PRANK_NAME_2.length ∧
    (EASTLString.outputName PRANK_NAME_1).length ≤ PRANK_NAME_1.length ∧
    (EASTLString.outputName PRANK_NAME_2).length ≤ PRANK_NAME_2.length ∧
    (StringView.outputName PRANK_NAME_1).length ≤ PRANK_NAME_1.length ∧
    (StringView.outputName PRANK_NAME_2).length ≤ PRANK_NAME_2.length := by
  refine ⟨by decide, by decide, by decide, by decide, by decide, by decide,
    by decide, by decide⟩

/-- C10: for every non-empty input whose first byte is a space, the
splitter step yields a zero-length fragment in each variant, and
`PrankMoe` still renders the full template (any template with at most two
placeholders, in particular the shipped ones) with zero bytes substituted
at the first placeholder: no variant suppresses output in this case. -/
theorem leadingSpaceGivesEmptyFragmentStillRenders (s t : List Char)
    (hhead : s.head? = some ' ') (hc : countPlaceholders t ≤ 2) :
    CString.fragment s = [] ∧
    EASTLString.outputName s = [] ∧
    StringView.outputName s = [] ∧
    CString.firstNameLength s = 0 ∧
    CString.PrankMoe t s = render t [(0, s), (CString.strlen s, s)] ∧
    (CString.PrankMoe t s).isSome ∧
    (EASTLString.PrankMoe t s).isSome ∧
    (StringView.PrankMoe t s).isSome := by
  obtain ⟨rest, rfl⟩ : ∃ rest, s = ' ' :: rest := by
    cases s with
    | nil => simp at hhead
    | cons b r =>
      simp only [List.head?_cons, Option.some_inj] at hhead
      exact ⟨r, by rw [hhead]⟩
  have hfind : findChar (' ' :: rest) ' ' = some 0 := by simp [findChar]
  have hfnl : CString.firstNameLength (' ' :: rest) = 0 := by
    simp [CString.firstNameLength, CString.strchr, hfind]
  have hfrag : CString.fragment (' ' :: rest) = [] := by
    simp [CString.fragment, hfnl]
  have hout : EASTLString.outputName (' ' :: rest) = [] :=
    (outputName_eq_fragment _).trans hfrag
  refine ⟨hfrag, hout, (view_outputName_eq _).trans hout, hfnl, ?_, ?_, ?_, ?_⟩
  · unfold CString.PrankMoe
    rw [hfnl]
  · exact render_isSome t _ (by simpa using hc)
  · exact render_isSome t _ (by simpa using hc)
  · exact render_isSome t _ (by simpa using hc)

theorem leadingSpaceGivesEmptyFragmentStillRendersWitness :
    CString.fragment " Moe".toList = [] ∧
    EASTLString.outputName " Moe".toList = [] ∧
    StringView.outputName " Moe".toList = [] ∧
    CString.firstNameLength " Moe".toList = 0 ∧
    CString.PrankMoe MOE_DIALOGUE_1 " Moe".toList =
      render MOE_DIALOGUE_1 [(0, " Moe".toList), (CString.strlen " Moe".toList, " Moe".toList)] ∧
    (CString.PrankMoe MOE_DIALOGUE_1 " Moe".toList).isSome ∧
    (EASTLString.PrankMoe MOE_DIALOGUE_1 " Moe".toList).isSome ∧
    (StringView.PrankMoe MOE_DIALOGUE_1 " Moe".toList).isSome :=
  leadingSpaceGivesEmptyFragmentStillRenders " Moe".toList MOE_DIALOGUE_1
    (by decide) (by decide)
